import Mathlib

/-!
# yacas character I/O core (src/lispio.cpp)

A shallow embedding of the three member functions defined in lispio.cpp

* InputStatus::SetTo
* InputStatus::RestoreFrom
* LispOutput::Write

followed by theorems about them.

Objects that the C++ code reaches through a reference or through the implicit
object pointer live in a store indexed by object identity, and every assignment of
the source is one store update, in source order. That keeps the case where two
references name the same object inside the model.
-/

set_option autoImplicit false

namespace Yacas

/-! ## Data model -/

/-- Character code of a LispChar. The terminator NUL is code 0. -/
abbrev LispChar := Nat

/-- Value of a pointer to characters that is stored but never dereferenced:
none is the null pointer, some a is the address a of a character array. -/
abbrev CharPtr := Option Nat

/-- The two data members written by SetTo and RestoreFrom. -/
structure InputStatus where
  iFileName : CharPtr
  iLineNumber : Int
deriving DecidableEq, Repr

/-- All InputStatus objects of the program, by object identity. -/
abbrev Trackers := Nat → InputStatus

/-- InputStatus::SetTo, lines 5 to 9. The first argument is the store, self is
the object the member function is called on.

    iFileName = aFileName;
    iLineNumber=1;
-/
def InputStatus.SetTo (m : Trackers) (self : Nat) (aFileName : CharPtr) : Trackers :=
  let m1 := Function.update m self { m self with iFileName := aFileName }
  Function.update m1 self { m1 self with iLineNumber := 1 }

/-- InputStatus::RestoreFrom, lines 11 to 15. aPreviousStatus is a reference, so
it is an object identity and is read through the store at the time of each
assignment.

    iLineNumber = aPreviousStatus.iLineNumber;
    iFileName = aPreviousStatus.iFileName;
-/
def InputStatus.RestoreFrom (m : Trackers) (self : Nat) (aPreviousStatus : Nat) : Trackers :=
  let m1 := Function.update m self
    { m self with iLineNumber := (m aPreviousStatus).iLineNumber }
  Function.update m1 self
    { m1 self with iFileName := (m1 aPreviousStatus).iFileName }

/-- How a call of Write ends. -/
inductive Completion (ε : Type) where
  /-- The loop met the terminator and the function returned. -/
  | returned
  /-- A call of PutChar threw e. Write has no handler, so e leaves Write. -/
  | raised (e : ε)
  /-- The loop read past the last element of the array: undefined behaviour. -/
  | overrun
deriving DecidableEq, Repr

/-- A concrete LispOutput: the pure virtual PutChar, as a transition on the sink
state σ of the backend. The first component of the result is none when the call
returns and some e when it throws e; the second is the sink state it leaves. -/
structure LispOutput (σ ε : Type) where
  PutChar : LispChar → σ → Option ε × σ

/-- LispOutput::Write, lines 26 to 30. The list holds the elements of the array
that aString points into, from the pointed-to element up to the last element of
the array.

    while (*aString != NUL)
        PutChar(*aString++);
-/
def LispOutput.Write {σ ε : Type} (out : LispOutput σ ε) :
    List LispChar → σ → Completion ε × σ
  | [], s => (Completion.overrun, s)
  | c :: rest, s =>
    if c ≠ 0 then
      match out.PutChar c s with
      | (none, s1) => out.Write rest s1
      | (some e, s1) => (Completion.raised e, s1)
    else
      (Completion.returned, s)

/-! ## Backends used to observe Write -/

/-- A backend whose PutChar always returns, given by its effect on the sink. -/
def LispOutput.ofFn {σ ε : Type} (f : LispChar → σ → σ) : LispOutput σ ε where
  PutChar c s := (none, f c s)

/-- The recording backend: the sink is a log and PutChar appends its argument. -/
def LispOutput.recorder {ε : Type} : LispOutput (List LispChar) ε :=
  LispOutput.ofFn (fun c log => log ++ [c])

/-- Any backend with a call log added to its sink: every invocation of PutChar is
logged with its argument and with whether it returned (true) or threw (false). -/
def LispOutput.traced {σ ε : Type} (out : LispOutput σ ε) :
    LispOutput (σ × List (LispChar × Bool)) ε where
  PutChar c st :=
    let r := out.PutChar c st.1
    (r.1, (r.2, st.2 ++ [(c, r.1.isNone)]))

/-! ## Sequences of calls on trackers -/

/-- One call of a member function of InputStatus. -/
inductive Call where
  | setTo (self : Nat) (aFileName : CharPtr)
  | restoreFrom (self : Nat) (aPreviousStatus : Nat)
deriving DecidableEq, Repr

/-- The tracker a call assigns to. -/
def Call.target : Call → Nat
  | Call.setTo self _ => self
  | Call.restoreFrom self _ => self

/-- The trackers a call mentions. -/
def Call.mentions : Call → List Nat
  | Call.setTo self _ => [self]
  | Call.restoreFrom self prev => [self, prev]

/-- Effect of one call on the store. -/
def Call.apply (m : Trackers) : Call → Trackers
  | Call.setTo self f => InputStatus.SetTo m self f
  | Call.restoreFrom self prev => InputStatus.RestoreFrom m self prev

/-- Effect of a sequence of calls, first call first. -/
def run (m : Trackers) (cs : List Call) : Trackers :=
  cs.foldl Call.apply m

/-! ## Write as the spec words it, and two calls in a row -/

/-- One step of the fold of PutChar: invoke PutChar on the next character from
the sink state reached so far, unless an earlier call has thrown, in which case
nothing more is invoked and the failure is carried on. -/
def putStep {σ ε : Type} (out : LispOutput σ ε) (acc : Option ε × σ) (c : LispChar) :
    Option ε × σ :=
  match acc with
  | (none, x) => out.PutChar c x
  | (some e, x) => (some e, x)

/-- WriteString as the spec words it: the left fold of the single-character
primitive over the characters of the string, in order, starting from the
initial sink state, stopping at the first call that fails. It is written with
the primitive alone. -/
def WriteString_spec {σ ε : Type} (out : LispOutput σ ε) (s : List LispChar) (x : σ) :
    Option ε × σ :=
  s.foldl (putStep out) (none, x)

/-- How a call of Write ends when the fold of PutChar ends with this outcome:
it returns when no call threw, and throws e when a call threw e. -/
def Completion.ofOutcome {ε : Type} : Option ε → Completion ε
  | none => Completion.returned
  | some e => Completion.raised e

/-- Two calls in a row, Write(aString1); Write(aString2); on the same backend.
The second call is made only when the first returns; when the first throws (or
overruns) that is how the pair ends. -/
def LispOutput.WriteWrite {σ ε : Type} (out : LispOutput σ ε)
    (aString1 aString2 : List LispChar) (x : σ) : Completion ε × σ :=
  match out.Write aString1 x with
  | (Completion.returned, x1) => out.Write aString2 x1
  | r => r

/-! ## Concrete backends and stores for the examples -/

/-- A recording sink with room for two characters: PutChar appends while the log
is shorter than two and throws, leaving the log as it is, once it is full. -/
def twoCharSink : LispOutput (List LispChar) String where
  PutChar c log := if log.length < 2 then (none, log ++ [c]) else (some "full", log)

/-- A store whose trackers have never been set: tracker 0 holds a null file name
and line number -1, every other tracker holds address 20 and line number 0. -/
def rawTrackers : Trackers :=
  fun i => if i = 0 then ⟨none, -1⟩ else ⟨some 20, 0⟩

/-- A store in use: tracker 0 is at line 42 of the file named at address 10,
every other tracker is at line 7 of the file named at address 20. -/
def demoTrackers : Trackers :=
  fun i => if i = 0 then ⟨some 10, 42⟩ else ⟨some 20, 7⟩

/-! ## Basic facts about the tracker operations -/

theorem SetTo_eq_update (m : Trackers) (t : Nat) (f : CharPtr) :
    InputStatus.SetTo m t f = Function.update m t ⟨f, 1⟩ := by
  funext x
  by_cases hx : x = t
  · subst hx; simp [InputStatus.SetTo]
  · simp [InputStatus.SetTo, Function.update, hx]

theorem RestoreFrom_eq_update (m : Trackers) (b a : Nat) :
    InputStatus.RestoreFrom m b a = Function.update m b (m a) := by
  funext x
  by_cases hx : x = b
  · subst hx
    by_cases hab : a = x
    · subst hab; simp [InputStatus.RestoreFrom]
    · simp [InputStatus.RestoreFrom, Function.update, hab]
  · simp [InputStatus.RestoreFrom, Function.update, hx]

/-! ## Basic facts about Write -/

theorem Write_nul {σ ε : Type} (out : LispOutput σ ε) (rest : List LispChar) (s : σ) :
    out.Write (0 :: rest) s = (Completion.returned, s) := by
  simp [LispOutput.Write]

theorem Write_cons_returns {σ ε : Type} (out : LispOutput σ ε) (c : LispChar)
    (rest : List LispChar) (s s1 : σ) (hc : c ≠ 0) (h : out.PutChar c s = (none, s1)) :
    out.Write (c :: rest) s = out.Write rest s1 := by
  simp [LispOutput.Write, hc, h]

theorem Write_cons_throws {σ ε : Type} (out : LispOutput σ ε) (c : LispChar)
    (rest : List LispChar) (s s1 : σ) (e : ε) (hc : c ≠ 0)
    (h : out.PutChar c s = (some e, s1)) :
    out.Write (c :: rest) s = (Completion.raised e, s1) := by
  simp [LispOutput.Write, hc, h]

theorem traced_PutChar_returns {σ ε : Type} (out : LispOutput σ ε) (c : LispChar)
    (s s1 : σ) (log : List (LispChar × Bool)) (h : out.PutChar c s = (none, s1)) :
    out.traced.PutChar c (s, log) = (none, (s1, log ++ [(c, true)])) := by
  simp [LispOutput.traced, h]

theorem traced_PutChar_throws {σ ε : Type} (out : LispOutput σ ε) (c : LispChar)
    (s s1 : σ) (e : ε) (log : List (LispChar × Bool)) (h : out.PutChar c s = (some e, s1)) :
    out.traced.PutChar c (s, log) = (some e, (s1, log ++ [(c, false)])) := by
  simp [LispOutput.traced, h]

/-- The call log does not change what Write does to the wrapped backend. -/
theorem Write_traced_erase {σ ε : Type} (out : LispOutput σ ε) (buf : List LispChar) :
    ∀ (s : σ) (log : List (LispChar × Bool)),
      ((out.traced.Write buf (s, log)).1, (out.traced.Write buf (s, log)).2.1)
        = out.Write buf s := by
  induction buf with
  | nil => intro s log; simp [LispOutput.Write]
  | cons c rest ih =>
    intro s log
    by_cases hc : c = 0
    · subst hc; simp [Write_nul]
    · cases hp : out.PutChar c s with
      | mk r s1 =>
        cases r with
        | none =>
          rw [Write_cons_returns out c rest s s1 hc hp,
            Write_cons_returns out.traced c rest _ _ hc
              (traced_PutChar_returns out c s s1 log hp)]
          exact ih s1 _
        | some e =>
          rw [Write_cons_throws out c rest s s1 e hc hp,
            Write_cons_throws out.traced c rest _ _ e hc
              (traced_PutChar_throws out c s s1 e log hp)]

/-- Write on a backend that always returns: the run ends at the first NUL, or
overruns when there is none, and the sink is the fold of PutChar over the
characters before it. -/
theorem Write_ofFn {σ ε : Type} (f : LispChar → σ → σ) (buf : List LispChar) :
    ∀ s : σ, (LispOutput.ofFn f : LispOutput σ ε).Write buf s
      = (if 0 ∈ buf then Completion.returned else Completion.overrun,
         (buf.takeWhile (fun c => decide (c ≠ 0))).foldl (fun a c => f c a) s) := by
  induction buf with
  | nil => intro s; simp [LispOutput.Write]
  | cons c rest ih =>
    intro s
    by_cases hc : c = 0
    · subst hc; simp [Write_nul]
    · have hc0 : ¬ (0 = c) := fun h => hc h.symm
      rw [Write_cons_returns _ c rest s (f c s) hc rfl, ih]
      simp [hc, hc0]

/-- Failure at position k, in the form used for induction: the first k-1
calls return along the states st, the k-th throws. -/
theorem Write_traced_fail {σ ε : Type} (out : LispOutput σ ε) (rest : List LispChar)
    (e : ε) (s1 : σ) (s : List LispChar) :
    ∀ (k : Nat) (st : Nat → σ) (log : List (LispChar × Bool)),
      1 ≤ k → k ≤ s.length → (∀ c ∈ s, c ≠ 0) →
      (∀ i, i < k - 1 → out.PutChar (s.getD i 0) (st i) = (none, st (i + 1))) →
      out.PutChar (s.getD (k - 1) 0) (st (k - 1)) = (some e, s1) →
      out.traced.Write (s ++ 0 :: rest) (st 0, log)
        = (Completion.raised e,
            (s1, log ++ ((s.take (k - 1)).map (fun c => (c, true))
              ++ [(s.getD (k - 1) 0, false)]))) := by
  induction s with
  | nil => intro k st log h1 hk; simp at hk; omega
  | cons c s ih =>
    intro k st log h1 hk hnul hok hfail
    have hc : c ≠ 0 := hnul c (by simp)
    match k, h1 with
    | 1, _ =>
      simp at hfail
      rw [List.cons_append,
        Write_cons_throws out.traced c _ _ _ e hc
          (traced_PutChar_throws out c (st 0) s1 e log hfail)]
      simp
    | k + 2, _ =>
      have h0 := hok 0 (by omega)
      simp at h0
      rw [List.cons_append,
        Write_cons_returns out.traced c _ _ _ hc
          (traced_PutChar_returns out c (st 0) (st 1) log h0)]
      have := ih (k + 1) (fun i => st (i + 1)) (log ++ [(c, true)]) (by omega)
        (by simp at hk; omega) (fun x hx => hnul x (by simp [hx]))
        (fun i hi => by
          have := hok (i + 1) (by omega)
          simpa using this)
        (by simpa using hfail)
      simp at this
      simp [this]

/-- A tracker that no call of the sequence assigns to keeps its value. -/
theorem run_untouched (s : Nat) (cs : List Call) :
    ∀ m : Trackers, (∀ c ∈ cs, c.target ≠ s) → run m cs s = m s := by
  induction cs with
  | nil => intro m _; rfl
  | cons c cs ih =>
    intro m h
    have hc : c.target ≠ s := h c (by simp)
    have hrest : ∀ d ∈ cs, d.target ≠ s := fun d hd => h d (by simp [hd])
    have hstep : Call.apply m c s = m s := by
      cases c with
      | setTo self f =>
        have : s ≠ self := fun e => hc e.symm
        simp [Call.apply, SetTo_eq_update, Function.update, this]
      | restoreFrom self prev =>
        have : s ≠ self := fun e => hc e.symm
        simp [Call.apply, RestoreFrom_eq_update, Function.update, this]
    show run (Call.apply m c) cs s = m s
    rw [ih (Call.apply m c) hrest, hstep]

/-! ## Write to a recording backend -/

/-- C1. Write on a recording backend. A backend records when its sink carries a
log (read by logOf) and every call of PutChar returns and appends its argument
to that log. For such a backend and a string s without NUL, stored as s
followed by its terminator (and whatever the array holds after it), Write
started with log L returns with the log equal to L followed by s. -/
theorem Write_recorder_exact {σ ε : Type} (out : LispOutput σ ε)
    (logOf : σ → List LispChar) (s rest : List LispChar) (x : σ)
    (hrec : ∀ c y, (out.PutChar c y).1 = none ∧
      logOf (out.PutChar c y).2 = logOf y ++ [c])
    (hs : ∀ c ∈ s, c ≠ 0) :
    (out.Write (s ++ 0 :: rest) x).1 = Completion.returned ∧
    logOf (out.Write (s ++ 0 :: rest) x).2 = logOf x ++ s := by
  induction s generalizing x with
  | nil => simp [Write_nul]
  | cons c s ih =>
    have hc : c ≠ 0 := hs c (by simp)
    obtain ⟨hr, hl⟩ := hrec c x
    cases hp : out.PutChar c x with
    | mk r x1 =>
      rw [hp] at hr hl
      simp only at hr hl
      subst hr
      rw [List.cons_append, Write_cons_returns out c _ x x1 hc hp]
      obtain ⟨h1, h2⟩ := ih x1 (fun y hy => hs y (by simp [hy]))
      exact ⟨h1, by rw [h2, hl]; simp⟩

theorem Write_recorder_exact_witness :
    (∀ c y, ((LispOutput.recorder : LispOutput (List LispChar) Unit).PutChar c y).1 = none ∧
      id ((LispOutput.recorder : LispOutput (List LispChar) Unit).PutChar c y).2
        = id y ++ [c]) ∧
    (∀ c ∈ [104, 105, 33], c ≠ 0) ∧
    ((LispOutput.recorder : LispOutput (List LispChar) Unit).Write
        ([104, 105, 33] ++ 0 :: [120, 0]) [62, 32]).1 = Completion.returned ∧
    id ((LispOutput.recorder : LispOutput (List LispChar) Unit).Write
        ([104, 105, 33] ++ 0 :: [120, 0]) [62, 32]).2 = id [62, 32] ++ [104, 105, 33] :=
  ⟨fun _ _ => ⟨rfl, rfl⟩, by decide,
    Write_recorder_exact (LispOutput.recorder : LispOutput (List LispChar) Unit) id
      [104, 105, 33] [120, 0] [62, 32] (fun _ _ => ⟨rfl, rfl⟩) (by decide)⟩

/-! ## Failure of PutChar inside Write -/

/-- C2. Failure in the middle of a string. Let s be a string without NUL and
1 ≤ k ≤ length s. Suppose the calls of PutChar on the first k-1 characters
return, taking the sink through the states st 0, st 1, up to st (k-1), and the call on
the k-th character throws e and leaves the sink in state s1. Then Write throws
e to its caller with the sink in state s1, and the call log is: the first k-1
characters, each returned, then the k-th character, thrown, and nothing after
it. -/
theorem Write_stops_at_failure {σ ε : Type} (out : LispOutput σ ε)
    (s rest : List LispChar) (k : Nat) (st : Nat → σ) (e : ε) (s1 : σ)
    (h1 : 1 ≤ k) (hk : k ≤ s.length) (hnul : ∀ c ∈ s, c ≠ 0)
    (hok : ∀ i, i < k - 1 → out.PutChar (s.getD i 0) (st i) = (none, st (i + 1)))
    (hfail : out.PutChar (s.getD (k - 1) 0) (st (k - 1)) = (some e, s1)) :
    out.Write (s ++ 0 :: rest) (st 0) = (Completion.raised e, s1) ∧
    out.traced.Write (s ++ 0 :: rest) (st 0, [])
      = (Completion.raised e,
          (s1, (s.take (k - 1)).map (fun c => (c, true)) ++ [(s.getD (k - 1) 0, false)])) := by
  have ht := Write_traced_fail out rest e s1 s k st [] h1 hk hnul hok hfail
  simp only [List.nil_append] at ht
  refine ⟨?_, ht⟩
  rw [← Write_traced_erase out (s ++ 0 :: rest) (st 0) [], ht]

theorem Write_stops_at_failure_witness :
    twoCharSink.Write ([97, 98, 99, 100] ++ 0 :: [101]) [] = (Completion.raised "full", [97, 98]) ∧
    twoCharSink.traced.Write ([97, 98, 99, 100] ++ 0 :: [101]) ([], [])
      = (Completion.raised "full", ([97, 98], [(97, true), (98, true), (99, false)])) :=
  Write_stops_at_failure twoCharSink [97, 98, 99, 100] [101] 3
    (fun i => [97, 98, 99, 100].take i) "full" [97, 98]
    (by decide) (by decide) (by decide) (by decide) (by decide)

/-! ## Write on the empty string -/

/-- C6. Write on the empty string (an array that starts with the terminator):
for every backend the call returns with the sink state unchanged, and it adds
nothing to the call log, so PutChar is invoked zero times. -/
theorem Write_empty {σ ε : Type} (out : LispOutput σ ε) (rest : List LispChar)
    (s : σ) (log : List (LispChar × Bool)) :
    out.Write (0 :: rest) s = (Completion.returned, s) ∧
    out.traced.Write (0 :: rest) (s, log) = (Completion.returned, (s, log)) :=
  ⟨Write_nul out rest s, Write_nul out.traced rest (s, log)⟩

/-! ## The position tracker -/

/-- C3. SetTo on any tracker t of any store, with any file name f, yields a
store (the operation has no failure outcome) in which t has line number 1 and
file name f; the store is the old one with t replaced by (f, 1). -/
theorem SetTo_sets (m : Trackers) (t : Nat) (f : CharPtr) :
    (InputStatus.SetTo m t f t).iLineNumber = 1 ∧
    (InputStatus.SetTo m t f t).iFileName = f ∧
    InputStatus.SetTo m t f = Function.update m t ⟨f, 1⟩ := by
  simp [SetTo_eq_update]

/-- C4. After b.RestoreFrom(a), b has the file name and the line number that a
had before the call, and both fields of a are what they were before the call.
This holds for all a and b, the same object included. -/
theorem RestoreFrom_copies (m : Trackers) (b a : Nat) :
    (InputStatus.RestoreFrom m b a b).iFileName = (m a).iFileName ∧
    (InputStatus.RestoreFrom m b a b).iLineNumber = (m a).iLineNumber ∧
    (InputStatus.RestoreFrom m b a a).iFileName = (m a).iFileName ∧
    (InputStatus.RestoreFrom m b a a).iLineNumber = (m a).iLineNumber := by
  by_cases h : a = b
  · subst h; simp [RestoreFrom_eq_update]
  · simp [RestoreFrom_eq_update, Function.update, h]

/-- C5. Save and restore. A snapshot s of tracker t is taken (s is another
tracker, filled by s.RestoreFrom(t)). Then any calls of SetTo and RestoreFrom
that do not assign to s are made, and after them t is put into an arbitrary
state (f2, n2), which covers changes made by other means such as incrementing
the line number. Then t.RestoreFrom(s) puts t back into the state it had when
the snapshot was taken. -/
theorem save_restore_roundtrip (m : Trackers) (t s : Nat) (cs : List Call)
    (f2 : CharPtr) (n2 : Int) (hst : s ≠ t) (hcs : ∀ c ∈ cs, c.target ≠ s) :
    InputStatus.RestoreFrom
        (Function.update (run (InputStatus.RestoreFrom m s t) cs) t ⟨f2, n2⟩) t s t
      = m t := by
  rw [RestoreFrom_eq_update]
  simp only [Function.update_same]
  rw [Function.update_noteq hst, run_untouched s cs _ hcs, RestoreFrom_eq_update]
  simp

theorem save_restore_roundtrip_witness :
    (1 ≠ 0) ∧
    (∀ c ∈ [Call.setTo 0 (some 30), Call.restoreFrom 0 2, Call.restoreFrom 2 1],
      c.target ≠ 1) ∧
    InputStatus.RestoreFrom
        (Function.update
          (run (InputStatus.RestoreFrom demoTrackers 1 0)
            [Call.setTo 0 (some 30), Call.restoreFrom 0 2, Call.restoreFrom 2 1])
          0 ⟨some 30, 5⟩) 0 1 0
      = ⟨some 10, 42⟩ :=
  ⟨by decide, by decide,
    save_restore_roundtrip demoTrackers 0 1
      [Call.setTo 0 (some 30), Call.restoreFrom 0 2, Call.restoreFrom 2 1]
      (some 30) 5 (by decide) (by decide)⟩

/-! ## Invariants of the tracker -/

/-- SetTo on each tracker of a list gives each of them a line number of at
least 1, and keeps that property for every tracker that already had it. -/
theorem run_setTo_lineNumber (inits : List (Nat × CharPtr)) :
    ∀ (m : Trackers) (x : Nat),
      (1 ≤ (m x).iLineNumber ∨ x ∈ inits.map Prod.fst) →
      1 ≤ (run m (inits.map (fun p => Call.setTo p.1 p.2)) x).iLineNumber := by
  induction inits with
  | nil => intro m x h; simpa [run] using h
  | cons p inits ih =>
    intro m x h
    show 1 ≤ (run (InputStatus.SetTo m p.1 p.2)
      (inits.map (fun p => Call.setTo p.1 p.2)) x).iLineNumber
    apply ih
    by_cases hx : x = p.1
    · left; subst hx; simp [SetTo_eq_update]
    · rcases h with h | h
      · left; simpa [SetTo_eq_update, Function.update, hx] using h
      · right
        simp only [List.map_cons, List.mem_cons] at h
        rcases h with h | h
        · exact absurd h hx
        · exact h

/-- Calls that mention only trackers of ts keep every tracker of ts at a line
number of at least 1. -/
theorem run_among_lineNumber (ts : List Nat) (cs : List Call) :
    ∀ m : Trackers, (∀ c ∈ cs, ∀ x ∈ c.mentions, x ∈ ts) →
      (∀ t ∈ ts, 1 ≤ (m t).iLineNumber) →
      ∀ t ∈ ts, 1 ≤ (run m cs t).iLineNumber := by
  induction cs with
  | nil => intro m _ hm t ht; exact hm t ht
  | cons c cs ih =>
    intro m hcs hm
    show ∀ t ∈ ts, 1 ≤ (run (Call.apply m c) cs t).iLineNumber
    apply ih _ (fun d hd => hcs d (by simp [hd]))
    intro t ht
    cases c with
    | setTo self f =>
      by_cases h : t = self
      · subst h; simp [Call.apply, SetTo_eq_update]
      · simpa [Call.apply, SetTo_eq_update, Function.update, h] using hm t ht
    | restoreFrom self prev =>
      have hprev : prev ∈ ts :=
        hcs (Call.restoreFrom self prev) (by simp) prev (by simp [Call.mentions])
      by_cases h : t = self
      · subst h; simpa [Call.apply, RestoreFrom_eq_update] using hm prev hprev
      · simpa [Call.apply, RestoreFrom_eq_update, Function.update, h] using hm t ht

/-- C7. The line number is at least 1: after SetTo on any tracker; after
b.RestoreFrom(a) whenever a has a line number of at least 1; and so, starting
from any store, once every tracker of a list has been initialised by SetTo,
after every sequence of SetTo and RestoreFrom calls that mention only trackers
of that list, for every tracker of the list. -/
theorem lineNumber_ge_one :
    (∀ (m : Trackers) (t : Nat) (f : CharPtr),
      1 ≤ (InputStatus.SetTo m t f t).iLineNumber) ∧
    (∀ (m : Trackers) (b a : Nat), 1 ≤ (m a).iLineNumber →
      1 ≤ (InputStatus.RestoreFrom m b a b).iLineNumber) ∧
    (∀ (m0 : Trackers) (inits : List (Nat × CharPtr)) (cs : List Call),
      (∀ c ∈ cs, ∀ x ∈ c.mentions, x ∈ inits.map Prod.fst) →
      ∀ t ∈ inits.map Prod.fst,
        1 ≤ (run (run m0 (inits.map (fun p => Call.setTo p.1 p.2))) cs t).iLineNumber) := by
  refine ⟨?_, ?_, ?_⟩
  · intro m t f; simp [SetTo_eq_update]
  · intro m b a h; simpa [RestoreFrom_eq_update] using h
  · intro m0 inits cs hcs
    exact run_among_lineNumber _ cs _ hcs
      (fun t ht => run_setTo_lineNumber inits m0 t (Or.inr ht))

theorem lineNumber_ge_one_witness :
    (1 ≤ (demoTrackers 1).iLineNumber ∧
      1 ≤ (InputStatus.RestoreFrom demoTrackers 0 1 0).iLineNumber) ∧
    ((∀ c ∈ [Call.restoreFrom 0 1, Call.setTo 1 none, Call.restoreFrom 1 0],
        ∀ x ∈ c.mentions, x ∈ [(0, some 10), (1, some 20)].map Prod.fst) ∧
      1 ≤ (run (run rawTrackers
            ([(0, some 10), (1, some 20)].map (fun p => Call.setTo p.1 p.2)))
          [Call.restoreFrom 0 1, Call.setTo 1 none, Call.restoreFrom 1 0] 0).iLineNumber) :=
  ⟨⟨by decide, lineNumber_ge_one.2.1 demoTrackers 0 1 (by decide)⟩,
    ⟨by decide,
      lineNumber_ge_one.2.2 rawTrackers [(0, some 10), (1, some 20)]
        [Call.restoreFrom 0 1, Call.setTo 1 none, Call.restoreFrom 1 0]
        (by decide) 0 (by decide)⟩⟩

/-- C8, as stated, fails: SetTo called with the null pointer on a tracker whose
file name is present leaves that tracker with a null file name. -/
theorem SetTo_null_fileName :
    (demoTrackers 0).iFileName = some 10 ∧
    (InputStatus.SetTo demoTrackers 0 none 0).iFileName = none ∧
    ¬ (∀ (m : Trackers) (t : Nat) (f : CharPtr),
        (InputStatus.SetTo m t f t).iFileName ≠ none) := by
  refine ⟨by decide, by decide, ?_⟩
  intro h
  exact h demoTrackers 0 none (by decide)

/-- C8, amended. For every non-null argument, the file name of the tracker after
SetTo is non-null (it is the argument). After b.RestoreFrom(a), b has a
non-null file name whenever a had one, and if every tracker of the store had a
non-null file name before the call, every tracker has one after it. -/
theorem fileName_present :
    (∀ (m : Trackers) (t : Nat) (a : Nat),
      (InputStatus.SetTo m t (some a) t).iFileName = some a ∧
      (InputStatus.SetTo m t (some a) t).iFileName ≠ none) ∧
    (∀ (m : Trackers) (b a : Nat), (m a).iFileName ≠ none →
      (InputStatus.RestoreFrom m b a b).iFileName ≠ none) ∧
    (∀ (m : Trackers) (b a : Nat), (∀ x, (m x).iFileName ≠ none) →
      ∀ x, (InputStatus.RestoreFrom m b a x).iFileName ≠ none) := by
  refine ⟨?_, ?_, ?_⟩
  · intro m t a; simp [SetTo_eq_update]
  · intro m b a h; simpa [RestoreFrom_eq_update] using h
  · intro m b a h x
    by_cases hx : x = b
    · subst hx; simpa [RestoreFrom_eq_update] using h a
    · simpa [RestoreFrom_eq_update, Function.update, hx] using h x

theorem fileName_present_witness :
    ((demoTrackers 1).iFileName ≠ none ∧
      (InputStatus.RestoreFrom demoTrackers 0 1 0).iFileName ≠ none) ∧
    ((∀ x, (demoTrackers x).iFileName ≠ none) ∧
      (InputStatus.RestoreFrom demoTrackers 0 1 3).iFileName ≠ none) :=
  have hall : ∀ x, (demoTrackers x).iFileName ≠ none := by
    intro x
    by_cases hx : x = 0 <;> simp [demoTrackers, hx]
  ⟨⟨by decide, fileName_present.2.1 demoTrackers 0 1 (by decide)⟩,
    ⟨hall, fileName_present.2.2 demoTrackers 0 1 hall 3⟩⟩

/-! ## Where Write stops -/

/-- The events Write adds to the call log. Their characters are an initial part
of the characters before the first NUL. When no call of PutChar throws they are
all of those characters, and the run returns when the array holds a NUL. -/
theorem Write_traced_log {σ ε : Type} (out : LispOutput σ ε) (buf : List LispChar) :
    ∀ (s : σ) (log : List (LispChar × Bool)),
      ∃ evs : List (LispChar × Bool),
        (out.traced.Write buf (s, log)).2.2 = log ++ evs ∧
        evs.map Prod.fst <+: buf.takeWhile (fun c => decide (c ≠ 0)) ∧
        ((∀ e, (out.traced.Write buf (s, log)).1 ≠ Completion.raised e) →
          evs.map Prod.fst = buf.takeWhile (fun c => decide (c ≠ 0)) ∧
          (0 ∈ buf → (out.traced.Write buf (s, log)).1 = Completion.returned)) := by
  induction buf with
  | nil => intro s log; exact ⟨[], by simp [LispOutput.Write]⟩
  | cons c rest ih =>
    intro s log
    by_cases hc : c = 0
    · subst hc; exact ⟨[], by simp [Write_nul]⟩
    · have hc0 : ¬ (0 = c) := fun h => hc h.symm
      cases hp : out.PutChar c s with
      | mk r s1 =>
        cases r with
        | none =>
          rw [Write_cons_returns out.traced c rest _ _ hc
            (traced_PutChar_returns out c s s1 log hp)]
          obtain ⟨evs, h1, h2, h3⟩ := ih s1 (log ++ [(c, true)])
          refine ⟨(c, true) :: evs, by simp [h1], ?_, ?_⟩
          · simpa [hc, List.cons_prefix_cons] using h2
          · intro hne
            obtain ⟨h4, h5⟩ := h3 hne
            refine ⟨by simp [hc, h4], ?_⟩
            intro hmem
            apply h5
            simpa [hc0] using hmem
        | some e =>
          rw [Write_cons_throws out.traced c rest _ _ e hc
            (traced_PutChar_throws out c s s1 e log hp)]
          refine ⟨[(c, false)], by simp, ?_, ?_⟩
          · simp [hc, List.cons_prefix_cons]
          · intro hne
            exact absurd rfl (hne e)

/-- A backend whose PutChar always returns never makes Write throw. -/
theorem Write_not_raised {σ ε : Type} (out : LispOutput σ ε)
    (hret : ∀ c x, (out.PutChar c x).1 = none) (buf : List LispChar) :
    ∀ (s : σ) (e : ε), (out.Write buf s).1 ≠ Completion.raised e := by
  induction buf with
  | nil => intro s e; simp [LispOutput.Write]
  | cons c rest ih =>
    intro s e
    by_cases hc : c = 0
    · subst hc; simp [Write_nul]
    · cases hp : out.PutChar c s with
      | mk r s1 =>
        have hr := hret c s
        rw [hp] at hr
        simp only at hr
        subst hr
        rw [Write_cons_returns out c rest s s1 hc hp]
        exact ih s1 e

/-- C9. Write stops at the first NUL. For every backend and every array, the
characters passed to PutChar, in call order, are an initial part of the
characters before the first NUL, so neither the terminator nor anything after
it is ever passed. When no call of PutChar throws, they are exactly the
characters before the first NUL, and Write returns when the array holds one. -/
theorem Write_stops_at_nul {σ ε : Type} (out : LispOutput σ ε) (buf : List LispChar)
    (s : σ) :
    (out.traced.Write buf (s, [])).2.2.map Prod.fst
        <+: buf.takeWhile (fun c => decide (c ≠ 0)) ∧
    ((∀ e, (out.traced.Write buf (s, [])).1 ≠ Completion.raised e) →
      (out.traced.Write buf (s, [])).2.2.map Prod.fst
          = buf.takeWhile (fun c => decide (c ≠ 0)) ∧
      (0 ∈ buf → (out.traced.Write buf (s, [])).1 = Completion.returned)) := by
  obtain ⟨evs, h1, h2, h3⟩ := Write_traced_log out buf s []
  simp only [List.nil_append] at h1
  rw [h1]
  exact ⟨h2, h3⟩

theorem Write_stops_at_nul_witness :
    (∀ e, ((LispOutput.recorder : LispOutput (List LispChar) Unit).traced.Write
        [104, 105, 0, 120, 121, 0] ([], [])).1 ≠ Completion.raised e) ∧
    ((LispOutput.recorder : LispOutput (List LispChar) Unit).traced.Write
        [104, 105, 0, 120, 121, 0] ([], [])).2.2.map Prod.fst = [104, 105] ∧
    ((0 : LispChar) ∈ [104, 105, 0, 120, 121, 0]) ∧
    ((LispOutput.recorder : LispOutput (List LispChar) Unit).traced.Write
        [104, 105, 0, 120, 121, 0] ([], [])).1 = Completion.returned :=
  have hne : ∀ e, ((LispOutput.recorder : LispOutput (List LispChar) Unit).traced.Write
      [104, 105, 0, 120, 121, 0] ([], [])).1 ≠ Completion.raised e := by
    intro e h
    have hr : ((LispOutput.recorder : LispOutput (List LispChar) Unit).traced.Write
        [104, 105, 0, 120, 121, 0] ([], [])).1 = Completion.returned := by decide
    rw [hr] at h
    cases h
  have h := (Write_stops_at_nul (LispOutput.recorder : LispOutput (List LispChar) Unit)
    [104, 105, 0, 120, 121, 0] []).2 hne
  ⟨hne, h.1, by decide, h.2 (by decide)⟩

/-- C10. Every operation completes. SetTo and RestoreFrom yield a store for
every store and every argument. For every array that holds a NUL and every
backend whose PutChar always returns, Write returns, and the number of
invocations of PutChar is the number of characters before the first NUL. -/
theorem operations_complete :
    (∀ (m : Trackers) (t : Nat) (f : CharPtr),
      ∃ m1 : Trackers, InputStatus.SetTo m t f = m1 ∧ m1 t = ⟨f, 1⟩) ∧
    (∀ (m : Trackers) (b a : Nat),
      ∃ m1 : Trackers, InputStatus.RestoreFrom m b a = m1 ∧ m1 b = m a) ∧
    (∀ (σ ε : Type) (out : LispOutput σ ε) (buf : List LispChar) (s : σ),
      (∀ c x, (out.PutChar c x).1 = none) → 0 ∈ buf →
      (out.Write buf s).1 = Completion.returned ∧
      (out.traced.Write buf (s, [])).1 = Completion.returned ∧
      (out.traced.Write buf (s, [])).2.2.length
        = (buf.takeWhile (fun c => decide (c ≠ 0))).length) := by
  refine ⟨?_, ?_, ?_⟩
  · intro m t f; exact ⟨_, rfl, by simp [SetTo_eq_update]⟩
  · intro m b a; exact ⟨_, rfl, by simp [RestoreFrom_eq_update]⟩
  · intro σ ε out buf s hret hmem
    have hne : ∀ e, (out.traced.Write buf (s, [])).1 ≠ Completion.raised e := by
      intro e
      apply Write_not_raised out.traced
      intro c x
      simp [LispOutput.traced, hret]
    obtain ⟨evs, h1, _, h3⟩ := Write_traced_log out buf s []
    obtain ⟨h4, h5⟩ := h3 hne
    have hret1 := h5 hmem
    refine ⟨?_, hret1, ?_⟩
    · have := congrArg Prod.fst (Write_traced_erase out buf s [])
      simpa [hret1] using this.symm
    · rw [h1, ← h4]; simp

theorem operations_complete_witness :
    (∀ c x, ((LispOutput.recorder : LispOutput (List LispChar) Unit).PutChar c x).1 = none) ∧
    ((0 : LispChar) ∈ [104, 105, 33, 0, 120]) ∧
    ((LispOutput.recorder : LispOutput (List LispChar) Unit).Write
        [104, 105, 33, 0, 120] []).1 = Completion.returned ∧
    ((LispOutput.recorder : LispOutput (List LispChar) Unit).traced.Write
        [104, 105, 33, 0, 120] ([], [])).1 = Completion.returned ∧
    ((LispOutput.recorder : LispOutput (List LispChar) Unit).traced.Write
        [104, 105, 33, 0, 120] ([], [])).2.2.length = 3 :=
  ⟨fun _ _ => rfl, by decide,
    operations_complete.2.2 (List LispChar) Unit LispOutput.recorder
      [104, 105, 33, 0, 120] [] (fun _ _ => rfl) (by decide)⟩

/-! ## Write is the fold of PutChar -/

/-- Once a call has thrown, the fold invokes nothing more. -/
theorem foldl_putStep_thrown {σ ε : Type} (out : LispOutput σ ε) (s : List LispChar) :
    ∀ (e : ε) (x : σ), s.foldl (putStep out) (some e, x) = (some e, x) := by
  induction s with
  | nil => intro e x; rfl
  | cons c s ih => intro e x; simpa [putStep] using ih e x

/-- C11. Write is defined by PutChar alone. For every backend (any sink state
type, any PutChar) and every string s without NUL, stored as s followed by its
terminator, Write ends as the left fold of PutChar over the characters of s
from the initial sink state ends, with the same sink state; the right-hand
side uses nothing of the backend but PutChar. For a PutChar that always
returns, given by a transition f on the sink, that is: Write returns with the
sink state List.foldl of f over s. -/
theorem Write_refines_fold {σ ε : Type} (out : LispOutput σ ε)
    (s rest : List LispChar) (x : σ) (hs : ∀ c ∈ s, c ≠ 0) :
    out.Write (s ++ 0 :: rest) x
      = (Completion.ofOutcome (WriteString_spec out s x).1, (WriteString_spec out s x).2) ∧
    ∀ f : LispChar → σ → σ,
      (LispOutput.ofFn f : LispOutput σ ε).Write (s ++ 0 :: rest) x
        = (Completion.returned, s.foldl (fun a c => f c a) x) := by
  constructor
  · induction s generalizing x with
    | nil => simp [Write_nul, WriteString_spec, Completion.ofOutcome]
    | cons c s ih =>
      have hc : c ≠ 0 := hs c (by simp)
      have hs1 : ∀ y ∈ s, y ≠ 0 := fun y hy => hs y (by simp [hy])
      cases hp : out.PutChar c x with
      | mk r x1 =>
        cases r with
        | none =>
          rw [List.cons_append, Write_cons_returns out c _ x x1 hc hp, ih x1 hs1]
          simp [WriteString_spec, putStep, hp]
        | some e =>
          rw [List.cons_append, Write_cons_throws out c _ x x1 e hc hp]
          simp [WriteString_spec, putStep, hp, foldl_putStep_thrown,
            Completion.ofOutcome]
  · intro f
    induction s generalizing x with
    | nil => simp [Write_nul]
    | cons c s ih =>
      have hc : c ≠ 0 := hs c (by simp)
      rw [List.cons_append, Write_cons_returns _ c _ x (f c x) hc rfl,
        ih (f c x) (fun y hy => hs y (by simp [hy]))]
      simp

theorem Write_refines_fold_witness :
    (∀ c ∈ [97, 98, 99, 100], c ≠ 0) ∧
    twoCharSink.Write ([97, 98, 99, 100] ++ 0 :: [101]) []
      = (Completion.ofOutcome (WriteString_spec twoCharSink [97, 98, 99, 100] []).1,
          (WriteString_spec twoCharSink [97, 98, 99, 100] []).2) ∧
    (WriteString_spec twoCharSink [97, 98, 99, 100] []) = (some "full", [97, 98]) :=
  ⟨by decide,
    (Write_refines_fold twoCharSink [97, 98, 99, 100] [101] [] (by decide)).1,
    by decide⟩

/-! ## Write and concatenation -/

/-- What the array holds after the terminator has no effect on Write. -/
theorem Write_after_nul {σ ε : Type} (out : LispOutput σ ε) (t r1 r2 : List LispChar)
    (ht : ∀ c ∈ t, c ≠ 0) :
    ∀ x : σ, out.Write (t ++ 0 :: r1) x = out.Write (t ++ 0 :: r2) x := by
  induction t with
  | nil => intro x; simp [Write_nul]
  | cons c t ih =>
    intro x
    have hc : c ≠ 0 := ht c (by simp)
    have ht1 : ∀ y ∈ t, y ≠ 0 := fun y hy => ht y (by simp [hy])
    cases hp : out.PutChar c x with
    | mk r x1 =>
      cases r with
      | none =>
        rw [List.cons_append, List.cons_append, Write_cons_returns out c _ x x1 hc hp,
          Write_cons_returns out c _ x x1 hc hp]
        exact ih ht1 x1
      | some e =>
        rw [List.cons_append, List.cons_append, Write_cons_throws out c _ x x1 e hc hp,
          Write_cons_throws out c _ x x1 e hc hp]

/-- Write on s followed by any further elements is Write on the string s and
then, when that returns, Write on the further elements. -/
theorem Write_append {σ ε : Type} (out : LispOutput σ ε) (s rest tail : List LispChar)
    (hs : ∀ c ∈ s, c ≠ 0) :
    ∀ x : σ, out.Write (s ++ tail) x = out.WriteWrite (s ++ 0 :: rest) tail x := by
  induction s with
  | nil => intro x; simp [LispOutput.WriteWrite, Write_nul]
  | cons c s ih =>
    intro x
    have hc : c ≠ 0 := hs c (by simp)
    have hs1 : ∀ y ∈ s, y ≠ 0 := fun y hy => hs y (by simp [hy])
    cases hp : out.PutChar c x with
    | mk r x1 =>
      cases r with
      | none =>
        have h := ih hs1 x1
        simp only [LispOutput.WriteWrite] at h ⊢
        rw [List.cons_append, List.cons_append, Write_cons_returns out c _ x x1 hc hp,
          Write_cons_returns out c _ x x1 hc hp]
        exact h
      | some e =>
        simp only [LispOutput.WriteWrite]
        rw [List.cons_append, List.cons_append, Write_cons_throws out c _ x x1 e hc hp,
          Write_cons_throws out c _ x x1 e hc hp]

/-- C12. Write distributes over concatenation. For every backend and all
strings s and t without NUL, each stored with its terminator, Write(s) followed
by Write(t) ends in the same way (returns, or throws the same failure) and with
the same sink state as one Write on s followed by t. When Write(s) throws,
Write(t) is not reached, and the single Write throws at the same call. -/
theorem Write_concat {σ ε : Type} (out : LispOutput σ ε)
    (s t rest1 rest2 rest3 : List LispChar) (x : σ)
    (hs : ∀ c ∈ s, c ≠ 0) (ht : ∀ c ∈ t, c ≠ 0) :
    out.WriteWrite (s ++ 0 :: rest1) (t ++ 0 :: rest2) x
      = out.Write ((s ++ t) ++ 0 :: rest3) x := by
  rw [List.append_assoc, Write_append out s rest1 (t ++ 0 :: rest3) hs x]
  simp only [LispOutput.WriteWrite]
  cases h : out.Write (s ++ 0 :: rest1) x with
  | mk r x1 =>
    cases r with
    | returned => exact Write_after_nul out t rest2 rest3 ht x1
    | raised e => rfl
    | overrun => rfl

theorem Write_concat_witness :
    (∀ c ∈ [97], c ≠ 0) ∧ (∀ c ∈ [98, 99, 100], c ≠ 0) ∧
    twoCharSink.WriteWrite ([97] ++ 0 :: [7]) ([98, 99, 100] ++ 0 :: []) []
      = twoCharSink.Write (([97] ++ [98, 99, 100]) ++ 0 :: [8, 9]) [] ∧
    twoCharSink.Write (([97] ++ [98, 99, 100]) ++ 0 :: [8, 9]) []
      = (Completion.raised "full", [97, 98]) :=
  ⟨by decide, by decide,
    Write_concat twoCharSink [97] [98, 99, 100] [7] [] [8, 9] [] (by decide) (by decide),
    by decide⟩

/-! ## Algebra of the tracker operations -/

/-- C13. RestoreFrom under aliasing, and twice. For every store and tracker t,
t.RestoreFrom(t) leaves the whole store, so t, as it was. For all trackers a
and b, the same object included, b.RestoreFrom(a) called twice in a row leaves
the same store, so the same b and the same a, as one call. -/
theorem RestoreFrom_alias_idem :
    (∀ (m : Trackers) (t : Nat), InputStatus.RestoreFrom m t t = m) ∧
    (∀ (m : Trackers) (b a : Nat),
      InputStatus.RestoreFrom (InputStatus.RestoreFrom m b a) b a
        = InputStatus.RestoreFrom m b a) := by
  constructor
  · intro m t
    rw [RestoreFrom_eq_update, Function.update_eq_self]
  · intro m b a
    rw [RestoreFrom_eq_update (InputStatus.RestoreFrom m b a), RestoreFrom_eq_update]
    by_cases h : a = b
    · subst h; simp
    · simp [Function.update_noteq h]

/-- C14. SetTo erases the prior state of the tracker. SetTo(f) on any two
trackers of any two stores leaves them in equal states. So SetTo(f) on a tracker
that has gone through n applications of any change inc of its state (such as
incrementing the line number), or through an earlier SetTo(g), leaves it in the
state SetTo(f) gives any other tracker t0 of any store m0, a fresh one included,
and the whole store is as if the earlier change had not been made. SetTo(f)
twice is SetTo(f) once. -/
theorem SetTo_erases :
    (∀ (m1 m2 : Trackers) (t1 t2 : Nat) (f : CharPtr),
      InputStatus.SetTo m1 t1 f t1 = InputStatus.SetTo m2 t2 f t2) ∧
    (∀ (m m0 : Trackers) (t t0 : Nat) (inc : InputStatus → InputStatus) (n : Nat)
        (f : CharPtr),
      InputStatus.SetTo (Function.update m t (Nat.iterate inc n (m t))) t f t
          = InputStatus.SetTo m0 t0 f t0 ∧
      InputStatus.SetTo (Function.update m t (Nat.iterate inc n (m t))) t f
          = InputStatus.SetTo m t f) ∧
    (∀ (m m0 : Trackers) (t t0 : Nat) (g f : CharPtr),
      InputStatus.SetTo (InputStatus.SetTo m t g) t f t = InputStatus.SetTo m0 t0 f t0 ∧
      InputStatus.SetTo (InputStatus.SetTo m t g) t f = InputStatus.SetTo m t f) ∧
    (∀ (m : Trackers) (t : Nat) (f : CharPtr),
      InputStatus.SetTo (InputStatus.SetTo m t f) t f = InputStatus.SetTo m t f) := by
  refine ⟨?_, ?_, ?_, ?_⟩
  · intro m1 m2 t1 t2 f; simp [SetTo_eq_update]
  · intro m m0 t t0 inc n f; simp [SetTo_eq_update]
  · intro m m0 t t0 g f; simp [SetTo_eq_update]
  · intro m t f; simp [SetTo_eq_update]

end Yacas
